import Mathlib

/-!
Verification development for the flow-meter firmware (main.cpp plus the
persistent-counter / scheduler / pulse-counter core modules described by the
design document).  Pure Lean models of the data structures and operations are
stated first, followed by theorems about them.
-/

/-- Modelled from the spec: the NonVolitileCounter implementation file is not
part of the visible sources (only its construction and call sites in main.cpp
are).  A storage slot holds {generation, value, checksum over generation+value}.
We abstract the byte image of a slot into three observable states: `empty`
(never written, checksum cannot validate), `valid gen value` (a fully written
slot whose checksum validates), and `corrupt` (a partially written slot; the
spec's integrity digest is modelled as detecting every partial write, so such a
slot fails validation). -/
inductive Slot where
  | empty : Slot
  | valid (gen : Nat) (value : Int) : Slot
  | corrupt : Slot
deriving DecidableEq

/-- Modelled from the spec: in-memory state of one persistent counter instance
(`app::NonVolitileCounter`): the slot region, the rotation pointer (index of
the next slot to write), the authoritative in-memory value and the last value
that reached storage. -/
structure NonVolitileCounter where
  capacity : Nat
  slots : List Slot
  rot : Nat
  currentValue : Int
  lastPersisted : Int
deriving DecidableEq

/-- Generation carried by a slot; non-valid slots contribute 0. -/
def slotGen : Slot → Nat
  | Slot.valid g _ => g
  | _ => 0

/-- Greatest generation appearing in any valid slot of the region (0 if none). -/
def maxGenOf (l : List Slot) : Nat :=
  l.foldr (fun sl acc => max (slotGen sl) acc) 0

/-- One step of the boot scan: fold a slot at absolute index `i` into the best
candidate seen so far (index, generation, value), keeping the greatest
generation. -/
def better (acc : Option (Nat × Nat × Int)) (i : Nat) : Slot → Option (Nat × Nat × Int)
  | Slot.valid g v =>
      match acc with
      | none => some (i, g, v)
      | some (j, gb, vb) => if gb < g then some (i, g, v) else some (j, gb, vb)
  | _ => acc

/-- Boot scan over the remaining slots, carrying the absolute index of the next
slot and the best candidate so far. -/
def scanSlots : List Slot → Nat → Option (Nat × Nat × Int) → Option (Nat × Nat × Int)
  | [], _, acc => acc
  | sl :: rest, i, acc => scanSlots rest (i + 1) (better acc i sl)

/-- Modelled from the spec: the boot scan of `init` — validate every slot and
among the valid ones select the one with the greatest generation, returning its
index, generation and value. -/
def bestSlot (l : List Slot) : Option (Nat × Nat × Int) :=
  scanSlots l 0 none

/-- Modelled from the spec: `init(fallbackValue)` scans all capacity slots; if a
valid slot is found, `currentValue` and `lastPersisted` are set to the best
slot's value and the rotation pointer to the slot after it; otherwise the
fallback value is used and the rotation pointer starts at slot 0. -/
def NonVolitileCounter.init (capacity : Nat) (slots : List Slot) (fallback : Int) :
    NonVolitileCounter :=
  match bestSlot slots with
  | some (i, _, v) => ⟨capacity, slots, (i + 1) % capacity, v, v⟩
  | none => ⟨capacity, slots, 0, fallback, fallback⟩

/-- Modelled from the spec: `setValue` overwrites the in-memory value only;
persistence follows the scheduled flush cadence. -/
def NonVolitileCounter.setValue (s : NonVolitileCounter) (v : Int) : NonVolitileCounter :=
  { s with currentValue := v }

/-- Modelled from the spec: the periodic flush (`process`).  If the value is
unchanged the cycle is a no-op; otherwise a fresh slot is written at the
rotation pointer with generation `maxKnownGeneration + 1` and the pointer
advances modulo capacity. -/
def NonVolitileCounter.process (s : NonVolitileCounter) : NonVolitileCounter :=
  if s.currentValue = s.lastPersisted then s
  else
    { s with
      slots := s.slots.set s.rot (Slot.valid (maxGenOf s.slots + 1) s.currentValue),
      rot := (s.rot + 1) % s.capacity,
      lastPersisted := s.currentValue }

/-- Modelled from the spec: the slot region as left behind by a power loss at
byte boundary `b` (0 ≤ b) inside the single slot write of a flush that was in
progress.  If the counter was clean no write was in progress and the region is
untouched; with `b = 0` no byte of the fresh slot was written; with
`0 < b < slotSize` the fresh slot is torn and its checksum fails; with
`b ≥ slotSize` the write completed. -/
def NonVolitileCounter.crashSlots (s : NonVolitileCounter) (b slotSize : Nat) : List Slot :=
  if s.currentValue = s.lastPersisted then s.slots
  else if b = 0 then s.slots
  else if b < slotSize then s.slots.set s.rot Slot.corrupt
  else s.slots.set s.rot (Slot.valid (maxGenOf s.slots + 1) s.currentValue)

/-- Operations applied to a persistent counter between boots: an external value
override, or a scheduled flush cycle. -/
inductive Op where
  | set (v : Int) : Op
  | flush : Op
deriving DecidableEq

/-- Apply one operation. -/
def NonVolitileCounter.applyOp (s : NonVolitileCounter) : Op → NonVolitileCounter
  | Op.set v => s.setValue v
  | Op.flush => s.process

/-- Run a sequence of operations. -/
def nvcRun (s : NonVolitileCounter) (ops : List Op) : NonVolitileCounter :=
  ops.foldl NonVolitileCounter.applyOp s

/-- Run a sequence of operations, also collecting the trace of physical slot
writes as (slot index, generation written) pairs. -/
def nvcRunW (s : NonVolitileCounter) : List Op → NonVolitileCounter × List (Nat × Nat)
  | [] => (s, [])
  | op :: rest =>
      let w : List (Nat × Nat) :=
        match op with
        | Op.flush =>
            if s.currentValue = s.lastPersisted then []
            else [(s.rot, maxGenOf s.slots + 1)]
        | _ => []
      let r := nvcRunW (s.applyOp op) rest
      (r.1, w ++ r.2)

/-- Value as of the last fully completed flush, written directly from the
spec's words: fold the operation list tracking the current value and the value
recorded at the most recent flush (the fallback if no flush ever ran). -/
def lastFlushValue (lastF cur : Int) : List Op → Int
  | [] => lastF
  | Op.set v :: rest => lastFlushValue lastF v rest
  | Op.flush :: rest => lastFlushValue cur cur rest

example :
    (nvcRun (NonVolitileCounter.init 3 (List.replicate 3 Slot.empty) 0)
      [Op.set 10, Op.flush, Op.set 20, Op.flush]).slots
    = [Slot.valid 1 10, Slot.valid 2 20, Slot.empty] := by decide

example :
    (NonVolitileCounter.init 3 [Slot.valid 4 40, Slot.valid 2 20, Slot.valid 3 30] 99).currentValue
    = 40 := by decide

@[simp] theorem maxGenOf_nil : maxGenOf [] = 0 := rfl

@[simp] theorem maxGenOf_cons (x : Slot) (xs : List Slot) :
    maxGenOf (x :: xs) = max (slotGen x) (maxGenOf xs) := rfl

theorem slotGen_le_maxGenOf (l : List Slot) (j : Nat) (sl : Slot)
    (h : l[j]? = some sl) : slotGen sl ≤ maxGenOf l := by
  induction l generalizing j with
  | nil => simp at h
  | cons x xs ih =>
    cases j with
    | zero =>
      rw [List.getElem?_cons_zero] at h
      cases h
      exact le_max_left _ _
    | succ n =>
      rw [List.getElem?_cons_succ] at h
      exact le_trans (ih n h) (le_max_right _ _)

@[simp] theorem better_empty (acc : Option (Nat × Nat × Int)) (i : Nat) :
    better acc i Slot.empty = acc := rfl

@[simp] theorem better_corrupt (acc : Option (Nat × Nat × Int)) (i : Nat) :
    better acc i Slot.corrupt = acc := rfl

theorem better_valid_none (i g : Nat) (v : Int) :
    better none i (Slot.valid g v) = some (i, g, v) := rfl

theorem better_valid_some (i g : Nat) (v : Int) (j gb : Nat) (vb : Int) :
    better (some (j, gb, vb)) i (Slot.valid g v)
    = if gb < g then some (i, g, v) else some (j, gb, vb) := rfl

@[simp] theorem scanSlots_nil (i : Nat) (acc : Option (Nat × Nat × Int)) :
    scanSlots [] i acc = acc := rfl

@[simp] theorem scanSlots_cons (sl : Slot) (l : List Slot) (i : Nat)
    (acc : Option (Nat × Nat × Int)) :
    scanSlots (sl :: l) i acc = scanSlots l (i + 1) (better acc i sl) := rfl

/-- Every slot the scan passes over loses to an accumulator already holding a
strictly greater generation. -/
theorem scanSlots_keep (l : List Slot) : ∀ (i0 j g : Nat) (v : Int),
    (∀ g' v', Slot.valid g' v' ∈ l → g' < g) →
    scanSlots l i0 (some (j, g, v)) = some (j, g, v) := by
  induction l with
  | nil => intro i0 j g v _; rfl
  | cons x xs ih =>
    intro i0 j g v h
    have hrest : ∀ g' v', Slot.valid g' v' ∈ xs → g' < g :=
      fun g' v' hm => h g' v' (List.mem_cons_of_mem _ hm)
    cases x with
    | valid gx vx =>
      have hx : gx < g := h gx vx (List.mem_cons_self _ _)
      rw [scanSlots_cons, better_valid_some, if_neg (by omega)]
      exact ih _ _ _ _ hrest
    | empty => rw [scanSlots_cons, better_empty]; exact ih _ _ _ _ hrest
    | corrupt => rw [scanSlots_cons, better_corrupt]; exact ih _ _ _ _ hrest

/-- A region is fully invalid when no slot in it passes checksum validation. -/
def AllInvalid (l : List Slot) : Prop := ∀ g v, Slot.valid g v ∉ l

theorem scanSlots_allInvalid (l : List Slot) : ∀ (i0 : Nat)
    (acc : Option (Nat × Nat × Int)), AllInvalid l → scanSlots l i0 acc = acc := by
  induction l with
  | nil => intro _ _ _; rfl
  | cons x xs ih =>
    intro i0 acc h
    have hrest : AllInvalid xs := fun g v hm => h g v (List.mem_cons_of_mem _ hm)
    cases x with
    | valid g v => exact absurd (List.mem_cons_self _ _) (h g v)
    | empty => rw [scanSlots_cons, better_empty]; exact ih _ _ hrest
    | corrupt => rw [scanSlots_cons, better_corrupt]; exact ih _ _ hrest

theorem bestSlot_allInvalid (l : List Slot) (h : AllInvalid l) : bestSlot l = none :=
  scanSlots_allInvalid l 0 none h

/-- Slot `i` dominates the region: it is valid with generation `g` and every
other valid slot has a strictly smaller generation. -/
def Dominant (l : List Slot) (i g : Nat) (v : Int) : Prop :=
  l[i]? = some (Slot.valid g v) ∧
  ∀ j g' v', j ≠ i → l[j]? = some (Slot.valid g' v') → g' < g

/-- The scan locates a dominant slot, whatever strictly-lower accumulator it
starts from. -/
theorem scanSlots_finds (l : List Slot) : ∀ (i0 d g : Nat) (v : Int)
    (acc : Option (Nat × Nat × Int)),
    l[d]? = some (Slot.valid g v) →
    (∀ j g' v', j ≠ d → l[j]? = some (Slot.valid g' v') → g' < g) →
    (acc = none ∨ ∃ j0 g0 v0, acc = some (j0, g0, v0) ∧ g0 < g) →
    scanSlots l i0 acc = some (i0 + d, g, v) := by
  induction l with
  | nil => intro i0 d g v acc h _ _; simp at h
  | cons x xs ih =>
    intro i0 d g v acc hd hdom hacc
    cases d with
    | zero =>
      rw [List.getElem?_cons_zero] at hd
      cases hd
      have hxs : ∀ g' v', Slot.valid g' v' ∈ xs → g' < g := by
        intro g' v' hm
        obtain ⟨k, hk⟩ := List.getElem?_of_mem hm
        exact hdom (k + 1) g' v' (by omega) (by rw [List.getElem?_cons_succ]; exact hk)
      have hstep : better acc i0 (Slot.valid g v) = some (i0, g, v) := by
        rcases hacc with h0 | ⟨j0, g0, v0, h0, hlt⟩
        · rw [h0, better_valid_none]
        · rw [h0, better_valid_some, if_pos hlt]
      rw [scanSlots_cons, hstep, scanSlots_keep xs _ _ _ _ hxs, Nat.add_zero]
    | succ n =>
      rw [List.getElem?_cons_succ] at hd
      have hdomxs : ∀ j g' v', j ≠ n → xs[j]? = some (Slot.valid g' v') → g' < g := by
        intro j g' v' hj hget
        exact hdom (j + 1) g' v' (by omega) (by rw [List.getElem?_cons_succ]; exact hget)
      have hacc2 : better acc i0 x = none ∨
          ∃ j0 g0 v0, better acc i0 x = some (j0, g0, v0) ∧ g0 < g := by
        cases x with
        | valid gx vx =>
          have hgx : gx < g := hdom 0 gx vx (by omega) (by rw [List.getElem?_cons_zero])
          rcases hacc with h0 | ⟨j0, g0, v0, h0, hlt⟩
          · exact Or.inr ⟨i0, gx, vx, by rw [h0, better_valid_none], hgx⟩
          · rw [h0, better_valid_some]
            by_cases hc : g0 < gx
            · exact Or.inr ⟨i0, gx, vx, by rw [if_pos hc], hgx⟩
            · exact Or.inr ⟨j0, g0, v0, by rw [if_neg hc], hlt⟩
        | empty => rw [better_empty]; exact hacc
        | corrupt => rw [better_corrupt]; exact hacc
      rw [scanSlots_cons]
      have hres := ih (i0 + 1) n g v (better acc i0 x) hd hdomxs hacc2
      rw [show i0 + 1 + n = i0 + (n + 1) from by omega] at hres
      exact hres

theorem bestSlot_dominant (l : List Slot) (i g : Nat) (v : Int)
    (h : Dominant l i g v) : bestSlot l = some (i, g, v) := by
  have := scanSlots_finds l 0 i g v none h.1 h.2 (Or.inl rfl)
  rw [bestSlot, this, Nat.zero_add]

/-- Case analysis for one scan step: either the accumulator is kept (and then
any valid slot it passed over is dominated by the accumulator), or the scanned
slot is taken over. -/
theorem better_cases (acc : Option (Nat × Nat × Int)) (i0 : Nat) (x : Slot) :
    (better acc i0 x = acc ∧
      ∀ g v, x = Slot.valid g v → ∃ j0 g0 v0, acc = some (j0, g0, v0) ∧ g ≤ g0)
  ∨ (∃ g v, x = Slot.valid g v ∧ better acc i0 x = some (i0, g, v) ∧
      ∀ j0 g0 v0, acc = some (j0, g0, v0) → g0 ≤ g) := by
  cases x with
  | empty => exact Or.inl ⟨rfl, fun g v h => by cases h⟩
  | corrupt => exact Or.inl ⟨rfl, fun g v h => by cases h⟩
  | valid gx vx =>
    cases acc with
    | none =>
      refine Or.inr ⟨gx, vx, rfl, better_valid_none i0 gx vx, ?_⟩
      intro j0 g0 v0 h
      cases h
    | some t =>
      obtain ⟨j0, g0, v0⟩ := t
      by_cases hc : g0 < gx
      · refine Or.inr ⟨gx, vx, rfl, by rw [better_valid_some, if_pos hc], ?_⟩
        intro j1 g1 v1 h
        simp only [Option.some.injEq, Prod.mk.injEq] at h
        omega
      · refine Or.inl ⟨by rw [better_valid_some, if_neg hc], ?_⟩
        intro g v h
        cases h
        exact ⟨j0, g0, v0, rfl, by omega⟩

/-- Soundness and maximality of the boot scan: the returned candidate is either
the untouched accumulator or a valid slot of the list, its generation bounds
the accumulator's generation, and it bounds the generation of every valid slot
of the list. -/
theorem scanSlots_sound (l : List Slot) : ∀ (i0 : Nat) (acc : Option (Nat × Nat × Int))
    (i g : Nat) (v : Int),
    scanSlots l i0 acc = some (i, g, v) →
    ((acc = some (i, g, v) ∨ ∃ d, i = i0 + d ∧ l[d]? = some (Slot.valid g v))
     ∧ (∀ j0 g0 v0, acc = some (j0, g0, v0) → g0 ≤ g)
     ∧ (∀ (d g' : Nat) (v' : Int), l[d]? = some (Slot.valid g' v') → g' ≤ g)) := by
  induction l with
  | nil =>
    intro i0 acc i g v h
    rw [scanSlots_nil] at h
    refine ⟨Or.inl h, ?_, ?_⟩
    · intro j0 g0 v0 ha
      rw [ha] at h
      simp only [Option.some.injEq, Prod.mk.injEq] at h
      omega
    · intro d g' v' hd
      simp at hd
  | cons x xs ih =>
    intro i0 acc i g v h
    rw [scanSlots_cons] at h
    obtain ⟨h1, h2, h3⟩ := ih (i0 + 1) (better acc i0 x) i g v h
    rcases better_cases acc i0 x with ⟨heq, hval⟩ | ⟨gx, vx, hx, heq, hlow⟩
    · refine ⟨?_, ?_, ?_⟩
      · rcases h1 with hacc | ⟨d, hi, hd⟩
        · rw [heq] at hacc
          exact Or.inl hacc
        · exact Or.inr ⟨d + 1, by omega, by rw [List.getElem?_cons_succ]; exact hd⟩
      · intro j0 g0 v0 ha
        exact h2 j0 g0 v0 (by rw [heq]; exact ha)
      · intro d g' v' hd
        cases d with
        | zero =>
          rw [List.getElem?_cons_zero] at hd
          injection hd with hx2
          obtain ⟨j0, g0, v0, ha, hge⟩ := hval g' v' hx2
          have := h2 j0 g0 v0 (by rw [heq]; exact ha)
          omega
        | succ n =>
          rw [List.getElem?_cons_succ] at hd
          exact h3 n g' v' hd
    · have hgx : gx ≤ g := h2 i0 gx vx heq
      refine ⟨?_, ?_, ?_⟩
      · rcases h1 with hacc | ⟨d, hi, hd⟩
        · rw [heq] at hacc
          simp only [Option.some.injEq, Prod.mk.injEq] at hacc
          obtain ⟨hi0, hg, hv⟩ := hacc
          refine Or.inr ⟨0, by omega, ?_⟩
          rw [List.getElem?_cons_zero, hx, hg, hv]
        · exact Or.inr ⟨d + 1, by omega, by rw [List.getElem?_cons_succ]; exact hd⟩
      · intro j0 g0 v0 ha
        have := hlow j0 g0 v0 ha
        omega
      · intro d g' v' hd
        cases d with
        | zero =>
          rw [List.getElem?_cons_zero, hx] at hd
          injection hd with hx2
          cases hx2
          exact hgx
        | succ n =>
          rw [List.getElem?_cons_succ] at hd
          exact h3 n g' v' hd

/-- Whatever `bestSlot` returns is a valid slot of the region whose generation
is greatest among all valid slots. -/
theorem bestSlot_sound (l : List Slot) (i g : Nat) (v : Int)
    (h : bestSlot l = some (i, g, v)) :
    l[i]? = some (Slot.valid g v) ∧
    ∀ (d g' : Nat) (v' : Int), l[d]? = some (Slot.valid g' v') → g' ≤ g := by
  obtain ⟨h1, _, h3⟩ := scanSlots_sound l 0 none i g v h
  rcases h1 with h0 | ⟨d, hi, hd⟩
  · cases h0
  · refine ⟨?_, h3⟩
    rw [show i = d from by omega]
    exact hd

theorem init_currentValue_dominant (cap : Nat) (l : List Slot) (fb : Int)
    (i g : Nat) (v : Int) (h : Dominant l i g v) :
    (NonVolitileCounter.init cap l fb).currentValue = v := by
  simp [NonVolitileCounter.init, bestSlot_dominant l i g v h]

theorem init_currentValue_allInvalid (cap : Nat) (l : List Slot) (fb : Int)
    (h : AllInvalid l) : (NonVolitileCounter.init cap l fb).currentValue = fb := by
  simp [NonVolitileCounter.init, bestSlot_allInvalid l h]

theorem lastIdx_ne_rot (rot cap : Nat) (hcap : 2 ≤ cap) (hrot : rot < cap) :
    (rot + cap - 1) % cap ≠ rot := by
  cases rot with
  | zero =>
    rw [Nat.zero_add, Nat.mod_eq_of_lt (by omega)]
    omega
  | succ r =>
    rw [show r + 1 + cap - 1 = r + cap from by omega, Nat.add_mod_right,
      Nat.mod_eq_of_lt (by omega)]
    omega

theorem rotBack (rot cap : Nat) (hcap : 1 ≤ cap) (hrot : rot < cap) :
    ((rot + 1) % cap + cap - 1) % cap = rot := by
  rcases Nat.lt_or_ge (rot + 1) cap with h | h
  · rw [Nat.mod_eq_of_lt h, show rot + 1 + cap - 1 = rot + cap from by omega,
      Nat.add_mod_right]
    exact Nat.mod_eq_of_lt hrot
  · have he : rot + 1 = cap := by omega
    rw [he, Nat.mod_self, show 0 + cap - 1 = rot from by omega]
    exact Nat.mod_eq_of_lt hrot

/-- Invariant maintained by a persistent counter between boots: structural
bounds, plus the fact that either no slot is valid yet and nothing was ever
persisted, or the slot just before the rotation pointer dominates the region
and holds the last persisted value. -/
structure NvcInv (fb : Int) (s : NonVolitileCounter) : Prop where
  len : s.slots.length = s.capacity
  cap2 : 2 ≤ s.capacity
  rotLt : s.rot < s.capacity
  best : (AllInvalid s.slots ∧ s.lastPersisted = fb) ∨
    ∃ g, Dominant s.slots ((s.rot + s.capacity - 1) % s.capacity) g s.lastPersisted

theorem init_cold_eq (cap : Nat) (fb : Int) :
    NonVolitileCounter.init cap (List.replicate cap Slot.empty) fb
    = ⟨cap, List.replicate cap Slot.empty, 0, fb, fb⟩ := by
  have hAll : AllInvalid (List.replicate cap Slot.empty) := by
    intro g v hm
    have := List.eq_of_mem_replicate hm
    simp at this
  simp [NonVolitileCounter.init, bestSlot_allInvalid _ hAll]

theorem inv_init_cold (cap : Nat) (fb : Int) (hcap : 2 ≤ cap) :
    NvcInv fb (NonVolitileCounter.init cap (List.replicate cap Slot.empty) fb) := by
  rw [init_cold_eq]
  refine ⟨by simp, hcap, by show 0 < cap; omega, Or.inl ⟨?_, rfl⟩⟩
  intro g v hm
  have := List.eq_of_mem_replicate hm
  simp at this

theorem inv_applyOp (fb : Int) (s : NonVolitileCounter) (op : Op) (h : NvcInv fb s) :
    NvcInv fb (s.applyOp op) := by
  cases op with
  | set v => exact ⟨h.len, h.cap2, h.rotLt, h.best⟩
  | flush =>
    show NvcInv fb s.process
    by_cases hc : s.currentValue = s.lastPersisted
    · rw [NonVolitileCounter.process, if_pos hc]
      exact h
    · rw [NonVolitileCounter.process, if_neg hc]
      have hcap2 := h.cap2
      have hrotlt := h.rotLt
      have hlen := h.len
      have hrotlen : s.rot < s.slots.length := by rw [hlen]; exact hrotlt
      refine ⟨by simp [hlen], hcap2, Nat.mod_lt _ (by omega),
        Or.inr ⟨maxGenOf s.slots + 1, ?_⟩⟩
      show Dominant (s.slots.set s.rot (Slot.valid (maxGenOf s.slots + 1) s.currentValue))
        (((s.rot + 1) % s.capacity + s.capacity - 1) % s.capacity)
        (maxGenOf s.slots + 1) s.currentValue
      rw [rotBack s.rot s.capacity (by omega) hrotlt]
      refine ⟨List.getElem?_set_self hrotlen, ?_⟩
      intro j g' v' hj hget
      rw [List.getElem?_set_ne (Ne.symm hj)] at hget
      have := slotGen_le_maxGenOf s.slots j _ hget
      simp only [slotGen] at this
      omega

@[simp] theorem nvcRun_nil (s : NonVolitileCounter) : nvcRun s [] = s := rfl

@[simp] theorem nvcRun_cons (s : NonVolitileCounter) (op : Op) (rest : List Op) :
    nvcRun s (op :: rest) = nvcRun (s.applyOp op) rest := rfl

theorem inv_run (fb : Int) (ops : List Op) : ∀ (s : NonVolitileCounter),
    NvcInv fb s → NvcInv fb (nvcRun s ops) := by
  induction ops with
  | nil => intro s h; exact h
  | cons op rest ih =>
    intro s h
    rw [nvcRun_cons]
    exact ih _ (inv_applyOp fb s op h)

theorem init_recovers (fb : Int) (s : NonVolitileCounter) (cap : Nat) (h : NvcInv fb s) :
    (NonVolitileCounter.init cap s.slots fb).currentValue = s.lastPersisted := by
  rcases h.best with ⟨hall, hlp⟩ | ⟨g, hdom⟩
  · rw [init_currentValue_allInvalid cap _ fb hall, hlp]
  · exact init_currentValue_dominant cap _ fb _ g _ hdom

/-- A power loss at any byte boundary strictly inside the slot write leaves a
region from which `init` recovers exactly the last persisted value. -/
theorem crash_preserves_recovery (fb : Int) (s : NonVolitileCounter) (cap b slotSize : Nat)
    (h : NvcInv fb s) (hb : b < slotSize) :
    (NonVolitileCounter.init cap (s.crashSlots b slotSize) fb).currentValue
    = s.lastPersisted := by
  rw [NonVolitileCounter.crashSlots]
  by_cases hc : s.currentValue = s.lastPersisted
  · rw [if_pos hc]
    exact init_recovers fb s cap h
  · rw [if_neg hc]
    by_cases hb0 : b = 0
    · rw [if_pos hb0]
      exact init_recovers fb s cap h
    · rw [if_neg hb0, if_pos hb]
      rcases h.best with ⟨hall, hlp⟩ | ⟨g, hdom⟩
      · have hall2 : AllInvalid (s.slots.set s.rot Slot.corrupt) := by
          intro g v hm
          rcases List.mem_or_eq_of_mem_set hm with hm2 | he
          · exact hall g v hm2
          · cases he
        rw [init_currentValue_allInvalid cap _ fb hall2, hlp]
      · have hrotlen : s.rot < s.slots.length := by rw [h.len]; exact h.rotLt
        have hne : (s.rot + s.capacity - 1) % s.capacity ≠ s.rot :=
          lastIdx_ne_rot s.rot s.capacity h.cap2 h.rotLt
        have hdom2 : Dominant (s.slots.set s.rot Slot.corrupt)
            ((s.rot + s.capacity - 1) % s.capacity) g s.lastPersisted := by
          refine ⟨?_, ?_⟩
          · rw [List.getElem?_set_ne (Ne.symm hne)]
            exact hdom.1
          · intro j g' v' hj hget
            by_cases hjr : j = s.rot
            · subst hjr
              rw [List.getElem?_set_self hrotlen] at hget
              cases hget
            · rw [List.getElem?_set_ne (Ne.symm hjr)] at hget
              exact hdom.2 j g' v' hj hget
        exact init_currentValue_dominant cap _ fb _ g _ hdom2

@[simp] theorem lastFlushValue_nil (a c : Int) : lastFlushValue a c [] = a := rfl

@[simp] theorem lastFlushValue_set (a c v : Int) (rest : List Op) :
    lastFlushValue a c (Op.set v :: rest) = lastFlushValue a v rest := rfl

@[simp] theorem lastFlushValue_flush (a c : Int) (rest : List Op) :
    lastFlushValue a c (Op.flush :: rest) = lastFlushValue c c rest := rfl

/-- The model's `lastPersisted` tracks the spec-level fold that records the
value at the most recent flush. -/
theorem run_lastPersisted (ops : List Op) : ∀ (s : NonVolitileCounter),
    (nvcRun s ops).lastPersisted
    = lastFlushValue s.lastPersisted s.currentValue ops := by
  induction ops with
  | nil => intro s; rfl
  | cons op rest ih =>
    intro s
    cases op with
    | set v =>
      rw [nvcRun_cons, lastFlushValue_set, ih (s.applyOp (Op.set v))]
      rfl
    | flush =>
      rw [nvcRun_cons, lastFlushValue_flush, ih (s.applyOp Op.flush)]
      by_cases hc : s.currentValue = s.lastPersisted
      · simp [NonVolitileCounter.applyOp, NonVolitileCounter.process, hc]
      · simp [NonVolitileCounter.applyOp, NonVolitileCounter.process, hc]

/-- C1: for every sequence of counter operations after a cold boot and every
power loss at an arbitrary byte boundary strictly within the single slot write
of an in-progress flush, the value recovered by `init` at the next boot equals
the value as of the last fully completed flush before the loss — never a torn
or corrupted value. -/
theorem crash_recovery_equals_last_flush (cap slotSize b : Nat) (fb : Int) (ops : List Op)
    (hcap : 2 ≤ cap) (hb : b < slotSize) :
    (NonVolitileCounter.init cap
        ((nvcRun (NonVolitileCounter.init cap (List.replicate cap Slot.empty) fb) ops).crashSlots
          b slotSize) fb).currentValue
    = lastFlushValue fb fb ops := by
  have h1 : NvcInv fb (nvcRun (NonVolitileCounter.init cap (List.replicate cap Slot.empty) fb) ops) :=
    inv_run fb ops _ (inv_init_cold cap fb hcap)
  rw [crash_preserves_recovery fb _ cap b slotSize h1 hb, run_lastPersisted, init_cold_eq]

/-- Witness for C1 at a concrete run: two slots, a completed flush of value 5,
a pending unflushed value 7, power loss at byte 3 of an 8-byte slot: the
recovered value is 5. -/
theorem crash_recovery_witness :
    (2 ≤ 2 ∧ 3 < 8) ∧
    (NonVolitileCounter.init 2
        ((nvcRun (NonVolitileCounter.init 2 (List.replicate 2 Slot.empty) 0)
            [Op.set 5, Op.flush, Op.set 7]).crashSlots 3 8) 0).currentValue = 5 :=
  ⟨⟨by omega, by omega⟩,
    (crash_recovery_equals_last_flush 2 8 3 0 [Op.set 5, Op.flush, Op.set 7]
      (by omega) (by omega)).trans (by decide)⟩

/-- C4: `init` scans all capacity slots, excludes every slot that fails
checksum validation, and among the valid slots selects the one with the
greatest generation, setting `currentValue` and `lastPersisted` to that slot's
value and the rotation pointer to the slot after it; concretely, with capacity
3 and four flushes writing generations 1, 2, 3, 4 to physical slots 0, 1, 2, 0,
the boot scan selects generation 4 at physical index 0 (value 40), not the
chronologically first slot. -/
theorem init_selects_greatest_generation :
    (∀ (cap : Nat) (l : List Slot) (fb : Int) (i g : Nat) (v : Int),
        bestSlot l = some (i, g, v) →
        (NonVolitileCounter.init cap l fb).currentValue = v
      ∧ (NonVolitileCounter.init cap l fb).lastPersisted = v
      ∧ (NonVolitileCounter.init cap l fb).rot = (i + 1) % cap
      ∧ l[i]? = some (Slot.valid g v)
      ∧ (∀ (d g' : Nat) (v' : Int), l[d]? = some (Slot.valid g' v') → g' ≤ g))
  ∧ ((nvcRun (NonVolitileCounter.init 3 (List.replicate 3 Slot.empty) 0)
        [Op.set 10, Op.flush, Op.set 20, Op.flush, Op.set 30, Op.flush,
         Op.set 40, Op.flush]).slots
      = [Slot.valid 4 40, Slot.valid 2 20, Slot.valid 3 30]
     ∧ (NonVolitileCounter.init 3
          [Slot.valid 4 40, Slot.valid 2 20, Slot.valid 3 30] 99).currentValue = 40
     ∧ (NonVolitileCounter.init 3
          [Slot.valid 4 40, Slot.valid 2 20, Slot.valid 3 30] 99).lastPersisted = 40
     ∧ (NonVolitileCounter.init 3
          [Slot.valid 4 40, Slot.valid 2 20, Slot.valid 3 30] 99).rot = 1) := by
  constructor
  · intro cap l fb i g v h
    obtain ⟨hv, hmax⟩ := bestSlot_sound l i g v h
    refine ⟨?_, ?_, ?_, hv, hmax⟩ <;> simp [NonVolitileCounter.init, h]
  · exact ⟨by decide, by decide, by decide, by decide⟩

/-- Witness for C4's general clause at a concrete one-slot region. -/
theorem init_selects_witness :
    bestSlot [Slot.valid 1 5] = some (0, 1, 5) ∧
    (NonVolitileCounter.init 1 [Slot.valid 1 5] 0).currentValue = 5 :=
  ⟨by decide, (init_selects_greatest_generation.1 1 [Slot.valid 1 5] 0 0 1 5 (by decide)).1⟩

/-- A sequence of external updates each followed by a flush cycle, as driven by
the scheduler between reboots. -/
def setFlushOps : List Int → List Op
  | [] => []
  | v :: rest => Op.set v :: Op.flush :: setFlushOps rest

/-- Each value differs from the previously persisted one, so every flush in
the sequence actually writes a slot. -/
def freshFrom : Int → List Int → Bool
  | _, [] => true
  | p, v :: rest => (v != p) && freshFrom v rest

theorem maxGenOf_set_le (l : List Slot) : ∀ (i : Nat) (sl : Slot),
    maxGenOf (l.set i sl) ≤ max (slotGen sl) (maxGenOf l) := by
  induction l with
  | nil => intro i sl; simp
  | cons x xs ih =>
    intro i sl
    cases i with
    | zero =>
      simp only [List.set_cons_zero, maxGenOf_cons]
      omega
    | succ n =>
      simp only [List.set_cons_succ, maxGenOf_cons]
      have := ih n sl
      omega

theorem maxGenOf_set_write (l : List Slot) (i : Nat) (v : Int) (hi : i < l.length) :
    maxGenOf (l.set i (Slot.valid (maxGenOf l + 1) v)) = maxGenOf l + 1 := by
  have h1 := maxGenOf_set_le l i (Slot.valid (maxGenOf l + 1) v)
  have h2 : slotGen (Slot.valid (maxGenOf l + 1) v)
      ≤ maxGenOf (l.set i (Slot.valid (maxGenOf l + 1) v)) :=
    slotGen_le_maxGenOf _ i _ (List.getElem?_set_self hi)
  simp only [slotGen] at h1 h2
  omega

/-- The state after one external update of value `v` followed by one actual
slot write. -/
def stepWrite (s : NonVolitileCounter) (v : Int) : NonVolitileCounter :=
  ⟨s.capacity, s.slots.set s.rot (Slot.valid (maxGenOf s.slots + 1) v),
   (s.rot + 1) % s.capacity, v, v⟩

theorem nvcRunW_setFlush_step (s : NonVolitileCounter) (v : Int) (rest : List Op)
    (hne : v ≠ s.lastPersisted) :
    nvcRunW s (Op.set v :: Op.flush :: rest)
    = ((nvcRunW (stepWrite s v) rest).1,
       (s.rot, maxGenOf s.slots + 1) :: (nvcRunW (stepWrite s v) rest).2) := by
  simp [nvcRunW, NonVolitileCounter.applyOp, NonVolitileCounter.setValue,
    NonVolitileCounter.process, stepWrite, hne]

theorem runW_setFlush (vs : List Int) : ∀ (s : NonVolitileCounter),
    s.rot < s.capacity → s.slots.length = s.capacity →
    freshFrom s.lastPersisted vs = true →
    ((nvcRunW s (setFlushOps vs)).2.map Prod.fst
        = (List.range vs.length).map (fun k => (s.rot + k) % s.capacity)
     ∧ (nvcRunW s (setFlushOps vs)).2.map Prod.snd
        = (List.range vs.length).map (fun k => maxGenOf s.slots + (k + 1))) := by
  induction vs with
  | nil => intro s _ _ _; exact ⟨rfl, rfl⟩
  | cons v rest ih =>
    intro s hrot hlen hfresh
    simp only [freshFrom, Bool.and_eq_true, bne_iff_ne] at hfresh
    obtain ⟨hne, hfr⟩ := hfresh
    have hcap : 0 < s.capacity := by omega
    have hrotlen : s.rot < s.slots.length := by rw [hlen]; exact hrot
    rw [show setFlushOps (v :: rest) = Op.set v :: Op.flush :: setFlushOps rest from rfl,
      nvcRunW_setFlush_step s v _ hne]
    have hmax : maxGenOf (stepWrite s v).slots = maxGenOf s.slots + 1 :=
      maxGenOf_set_write s.slots s.rot v hrotlen
    obtain ⟨ihf, ihs⟩ := ih (stepWrite s v)
      (by show (s.rot + 1) % s.capacity < s.capacity; exact Nat.mod_lt _ hcap)
      (by simp [stepWrite, hlen]) hfr
    constructor
    · simp only [List.map_cons]
      rw [ihf, List.length_cons, List.range_succ_eq_map, List.map_cons, List.map_map]
      congr 1
      · show s.rot = (s.rot + 0) % s.capacity
        rw [Nat.add_zero, Nat.mod_eq_of_lt hrot]
      · apply List.map_congr_left
        intro k _
        show ((stepWrite s v).rot + k) % (stepWrite s v).capacity
          = (s.rot + Nat.succ k) % s.capacity
        show ((s.rot + 1) % s.capacity + k) % s.capacity = (s.rot + Nat.succ k) % s.capacity
        rw [Nat.mod_add_mod]
        congr 1
        omega
    · simp only [List.map_cons]
      rw [ihs, hmax, List.length_cons, List.range_succ_eq_map, List.map_cons, List.map_map]
      congr 1
      apply List.map_congr_left
      intro k _
      show maxGenOf s.slots + 1 + (k + 1) = maxGenOf s.slots + (Nat.succ k + 1)
      omega

theorem map_add_mod_range (n r : Nat) (_hr : r < n) :
    (List.range n).map (fun k => (r + k) % n) = (List.range n).rotate r := by
  apply List.ext_getElem
  · simp
  · intro i h1 h2
    simp only [List.getElem_map, List.getElem_range]
    rw [List.getElem_rotate]
    simp only [List.getElem_range, List.length_range]
    rw [Nat.add_comm]

theorem count_mod_shift (n r j : Nat) (hr : r < n) (hj : j < n) :
    ((List.range n).map (fun k => (r + k) % n)).count j = 1 := by
  rw [map_add_mod_range n r hr, (List.rotate_perm (List.range n) r).count_eq]
  exact List.count_eq_one_of_mem (List.nodup_range n) (List.mem_range.2 hj)

theorem pairwise_lt_map_range_add (n a : Nat) :
    List.Pairwise (fun x y => x < y) ((List.range n).map (fun k => a + (k + 1))) := by
  refine List.Pairwise.map _ (fun x y hxy => ?_) (List.pairwise_lt_range n)
  omega

/-- C5: starting from any in-bounds state, a sequence of `capacity` flushes
that each actually write (each value fresh relative to the previously
persisted one) writes the physical slots `rot, rot+1, …` modulo capacity in
order — each physical slot exactly once — with generations
`maxGen+1, maxGen+2, …` strictly increasing across the whole sequence. -/
theorem wear_leveling_rotation (s : NonVolitileCounter) (vs : List Int)
    (hlen : vs.length = s.capacity) (hrot : s.rot < s.capacity)
    (hslots : s.slots.length = s.capacity)
    (hfresh : freshFrom s.lastPersisted vs = true) :
    ((nvcRunW s (setFlushOps vs)).2.map Prod.fst
        = (List.range s.capacity).map (fun k => (s.rot + k) % s.capacity))
  ∧ (∀ j, j < s.capacity → ((nvcRunW s (setFlushOps vs)).2.map Prod.fst).count j = 1)
  ∧ ((nvcRunW s (setFlushOps vs)).2.map Prod.snd
        = (List.range s.capacity).map (fun k => maxGenOf s.slots + (k + 1)))
  ∧ List.Pairwise (fun a b => a < b) ((nvcRunW s (setFlushOps vs)).2.map Prod.snd) := by
  obtain ⟨hf, hs2⟩ := runW_setFlush vs s hrot hslots hfresh
  rw [hlen] at hf hs2
  refine ⟨hf, ?_, hs2, ?_⟩
  · intro j hj
    rw [hf]
    exact count_mod_shift s.capacity s.rot j hrot hj
  · rw [hs2]
    exact pairwise_lt_map_range_add s.capacity (maxGenOf s.slots)

/-- Witness for C5 on a two-slot counter and two fresh flushes: slot 0 is
written exactly once. -/
theorem wear_leveling_witness :
    freshFrom 0 [5, 9] = true ∧
    ((nvcRunW (NonVolitileCounter.init 2 (List.replicate 2 Slot.empty) 0)
        (setFlushOps [5, 9])).2.map Prod.fst).count 0 = 1 :=
  ⟨by decide,
    (wear_leveling_rotation (NonVolitileCounter.init 2 (List.replicate 2 Slot.empty) 0)
      [5, 9] (by decide) (by decide) (by decide) (by decide)).2.1 0 (by decide)⟩

/-- Modelled from the spec: one registered periodic duty of the
TimerDispatcher — a fixed interval and the next-due timestamp. -/
structure ScheduledTask where
  interval : Nat
  nextDue : Nat
deriving DecidableEq

/-- Modelled from the spec: `startTimer(duty, interval)` registers a duty at
registration time `regTime`; its first due time is one interval later. -/
def startTimer (interval regTime : Nat) : ScheduledTask :=
  ⟨interval, regTime + interval⟩

/-- Modelled from the spec: one dispatcher tick for one task at time `now` —
if the task is due (`nextDue ≤ now`) it fires once and its next due time
becomes `now + interval` (skip-missed-ticks policy); otherwise nothing
happens. -/
def tickTask (t : ScheduledTask) (now : Nat) : ScheduledTask × Bool :=
  if t.nextDue ≤ now then (⟨t.interval, now + t.interval⟩, true) else (t, false)

/-- Run the dispatcher over a list of tick times, collecting the times at which
the task fired. -/
def runTask (t : ScheduledTask) : List Nat → ScheduledTask × List Nat
  | [] => (t, [])
  | now :: rest =>
      ((runTask (tickTask t now).1 rest).1,
       (if (tickTask t now).2 then [now] else []) ++ (runTask (tickTask t now).1 rest).2)

@[simp] theorem runTask_nil (t : ScheduledTask) : runTask t [] = (t, []) := rfl

theorem runTask_cons_fire (t : ScheduledTask) (now : Nat) (rest : List Nat)
    (h : t.nextDue ≤ now) :
    runTask t (now :: rest)
    = ((runTask ⟨t.interval, now + t.interval⟩ rest).1,
       now :: (runTask ⟨t.interval, now + t.interval⟩ rest).2) := by
  simp [runTask, tickTask, h]

theorem runTask_cons_skip (t : ScheduledTask) (now : Nat) (rest : List Nat)
    (h : ¬ t.nextDue ≤ now) :
    runTask t (now :: rest) = runTask t rest := by
  simp [runTask, tickTask, h]

/-- Fire times keep a full interval of headroom per past fire: if the pending
due time is at least `(j+1)·T`, the `k`-th subsequent fire happens no earlier
than `(j+k+1)·T`. -/
theorem runTask_fires_lower (ts : List Nat) : ∀ (t : ScheduledTask) (j : Nat),
    (j + 1) * t.interval ≤ t.nextDue →
    ∀ (k f : Nat), ((runTask t ts).2)[k]? = some f → (j + k + 1) * t.interval ≤ f := by
  induction ts with
  | nil => intro t j _ k f h; simp at h
  | cons now rest ih =>
    intro t j hdue k f h
    by_cases hfire : t.nextDue ≤ now
    · rw [runTask_cons_fire t now rest hfire] at h
      cases k with
      | zero =>
        rw [List.getElem?_cons_zero] at h
        cases h
        exact le_trans hdue hfire
      | succ m =>
        rw [List.getElem?_cons_succ] at h
        have hdue2 : (j + 1 + 1) * (⟨t.interval, now + t.interval⟩ : ScheduledTask).interval
            ≤ (⟨t.interval, now + t.interval⟩ : ScheduledTask).nextDue := by
          show (j + 1 + 1) * t.interval ≤ now + t.interval
          have h1 : (j + 1) * t.interval ≤ now := le_trans hdue hfire
          have h2 : (j + 1 + 1) * t.interval = (j + 1) * t.interval + t.interval :=
            Nat.succ_mul (j + 1) t.interval
          omega
        have hres := ih ⟨t.interval, now + t.interval⟩ (j + 1) hdue2 m f h
        rw [show j + 1 + m + 1 = j + (m + 1) + 1 from by omega] at hres
        exact hres
    · rw [runTask_cons_skip t now rest hfire] at h
      exact ih t j hdue k f h

/-- C6: a duty registered at time 0 with interval `T` fires at times
`≥ T, ≥ 2T, ≥ 3T, …` (the `k`-th fire no earlier than `(k+1)·T`); the
dispatcher never fires a task before its next-due time; and after an
arbitrarily long stall past the due time, the duty fires exactly once at the
resumption tick, not once per missed interval (the next tick within one
interval does not fire). -/
theorem scheduler_timing (T : Nat) :
    (∀ (ts : List Nat) (k f : Nat),
        ((runTask (startTimer T 0) ts).2)[k]? = some f → (k + 1) * T ≤ f)
  ∧ (∀ (t : ScheduledTask) (now : Nat), (tickTask t now).2 = true → t.nextDue ≤ now)
  ∧ (∀ (d now q : Nat), d ≤ now → q < T →
        (runTask ⟨T, d⟩ [now, now + q]).2 = [now]) := by
  refine ⟨?_, ?_, ?_⟩
  · intro ts k f h
    have hres := runTask_fires_lower ts (startTimer T 0) 0
      (by show (0 + 1) * T ≤ 0 + T; omega) k f h
    rw [show 0 + k + 1 = k + 1 from by omega] at hres
    exact hres
  · intro t now h
    by_cases hc : t.nextDue ≤ now
    · exact hc
    · rw [tickTask, if_neg hc] at h
      cases h
  · intro d now q hd hq
    rw [runTask_cons_fire _ _ _ (show (⟨T, d⟩ : ScheduledTask).nextDue ≤ now from hd)]
    rw [runTask_cons_skip _ _ _ (by show ¬ now + T ≤ now + q; omega)]
    rfl

/-- Witness for C6: interval 5 registered at time 0, tick times 3, 7, 12 — the
first fire is at time 7 ≥ 5. -/
theorem scheduler_timing_witness :
    ((runTask (startTimer 5 0) [3, 7, 12]).2)[0]? = some 7 ∧ (0 + 1) * 5 ≤ 7 :=
  ⟨by decide, (scheduler_timing 5).1 [3, 7, 12] 0 7 (by decide)⟩

/-- Modelled from the spec: debounce state of one pulse input (the PinCounter
per-tick sampler): the accepted stable level, the candidate level currently
being debounced, the number of consecutive ticks the candidate has been
observed, and the transient pulse tally.  The rising-edge configuration is
modelled: accepted rising transitions increment the tally. -/
structure Debounce where
  stable : Bool
  candidate : Bool
  count : Nat
  tally : Nat
deriving DecidableEq

/-- Modelled from the spec: one polled sample with debounce duration `D`
ticks.  A sample equal to the accepted level resets the debounce window; a
differing sample extends (or restarts) the candidate run, and once the input
has been stable in the new state for `D` consecutive ticks the transition is
accepted — incrementing the tally on a rising edge. -/
def dstep (D : Nat) (s : Debounce) (input : Bool) : Debounce :=
  if input = s.stable then ⟨s.stable, s.stable, 0, s.tally⟩
  else
    if D ≤ (if input = s.candidate then s.count + 1 else 1) then
      ⟨input, input, 0, s.tally + (if input then 1 else 0)⟩
    else ⟨s.stable, input, (if input = s.candidate then s.count + 1 else 1), s.tally⟩

/-- Run the sampler over a trace of inputs, one per tick. -/
def drun (D : Nat) (s : Debounce) (l : List Bool) : Debounce :=
  l.foldl (dstep D) s

/-- Fully debounced low state. -/
def settledLow (t : Nat) : Debounce := ⟨false, false, 0, t⟩

/-- Fully debounced high state. -/
def settledHigh (t : Nat) : Debounce := ⟨true, true, 0, t⟩

@[simp] theorem drun_nil (D : Nat) (s : Debounce) : drun D s [] = s := rfl

@[simp] theorem drun_cons (D : Nat) (s : Debounce) (i : Bool) (l : List Bool) :
    drun D s (i :: l) = drun D (dstep D s i) l := rfl

theorem drun_append (D : Nat) (s : Debounce) (l1 l2 : List Bool) :
    drun D s (l1 ++ l2) = drun D (drun D s l1) l2 := by
  simp [drun]

theorem dstep_low_low (D t : Nat) : dstep D (settledLow t) false = settledLow t := by
  simp [dstep, settledLow]

theorem dstep_high_high (D t : Nat) : dstep D (settledHigh t) true = settledHigh t := by
  simp [dstep, settledHigh]

theorem dstep_rise_progress (D c t : Nat) (h : c + 1 < D) :
    dstep D ⟨false, true, c, t⟩ true = ⟨false, true, c + 1, t⟩ := by
  simp [dstep, show ¬ D ≤ c + 1 from by omega]

theorem dstep_rise_accept (D c t : Nat) (h : D ≤ c + 1) :
    dstep D ⟨false, true, c, t⟩ true = settledHigh (t + 1) := by
  simp [dstep, settledHigh, h]

theorem dstep_low_to_cand (D t : Nat) (h : 2 ≤ D) :
    dstep D (settledLow t) true = ⟨false, true, 1, t⟩ := by
  simp [dstep, settledLow, show ¬ D ≤ 1 from by omega]

theorem dstep_low_accept_one (D t : Nat) (h : D ≤ 1) :
    dstep D (settledLow t) true = settledHigh (t + 1) := by
  simp [dstep, settledLow, settledHigh, h]

theorem dstep_fall_progress (D c t : Nat) (h : c + 1 < D) :
    dstep D ⟨true, false, c, t⟩ false = ⟨true, false, c + 1, t⟩ := by
  simp [dstep, show ¬ D ≤ c + 1 from by omega]

theorem dstep_fall_accept (D c t : Nat) (h : D ≤ c + 1) :
    dstep D ⟨true, false, c, t⟩ false = settledLow t := by
  simp [dstep, settledLow, h]

theorem dstep_high_to_cand (D t : Nat) (h : 2 ≤ D) :
    dstep D (settledHigh t) false = ⟨true, false, 1, t⟩ := by
  simp [dstep, settledHigh, show ¬ D ≤ 1 from by omega]

theorem dstep_high_accept_one (D t : Nat) (h : D ≤ 1) :
    dstep D (settledHigh t) false = settledLow t := by
  simp [dstep, settledLow, settledHigh, h]

theorem dstep_cand_reset_low (D c t : Nat) :
    dstep D ⟨false, true, c, t⟩ false = settledLow t := by
  simp [dstep, settledLow]

theorem drun_low_idle (D a t : Nat) :
    drun D (settledLow t) (List.replicate a false) = settledLow t := by
  induction a with
  | zero => rfl
  | succ n ih => rw [List.replicate_succ, drun_cons, dstep_low_low, ih]

theorem drun_high_idle (D a t : Nat) :
    drun D (settledHigh t) (List.replicate a true) = settledHigh t := by
  induction a with
  | zero => rfl
  | succ n ih => rw [List.replicate_succ, drun_cons, dstep_high_high, ih]

theorem drun_high_progress (D t k : Nat) : ∀ (c : Nat), c + k < D →
    drun D ⟨false, true, c, t⟩ (List.replicate k true) = ⟨false, true, c + k, t⟩ := by
  induction k with
  | zero => intro c _; rfl
  | succ n ih =>
    intro c h
    rw [List.replicate_succ, drun_cons, dstep_rise_progress D c t (by omega),
      show c + (n + 1) = (c + 1) + n from by omega]
    exact ih (c + 1) (by omega)

theorem drun_fall_progress (D t k : Nat) : ∀ (c : Nat), c + k < D →
    drun D ⟨true, false, c, t⟩ (List.replicate k false) = ⟨true, false, c + k, t⟩ := by
  induction k with
  | zero => intro c _; rfl
  | succ n ih =>
    intro c h
    rw [List.replicate_succ, drun_cons, dstep_fall_progress D c t (by omega),
      show c + (n + 1) = (c + 1) + n from by omega]
    exact ih (c + 1) (by omega)

/-- A high phase of at least the debounce duration, entered from the settled
low state, is accepted exactly once: it ends settled high with tally + 1. -/
theorem drun_rise (D t b : Nat) (hD : 1 ≤ D) (hb : D ≤ b) :
    drun D (settledLow t) (List.replicate b true) = settledHigh (t + 1) := by
  obtain ⟨m, rfl⟩ : ∃ m, b = D + m := ⟨b - D, by omega⟩
  rw [List.replicate_add, drun_append]
  have h1 : drun D (settledLow t) (List.replicate D true) = settledHigh (t + 1) := by
    cases D with
    | zero => omega
    | succ n =>
      rw [List.replicate_succ, drun_cons]
      cases n with
      | zero => rw [dstep_low_accept_one _ _ (by omega)]; rfl
      | succ p =>
        rw [dstep_low_to_cand _ _ (by omega),
          show List.replicate (p + 1) true = List.replicate p true ++ [true] from by
            rw [List.replicate_succ'],
          drun_append, drun_high_progress _ _ _ 1 (by omega), drun_cons,
          dstep_rise_accept _ _ _ (by omega)]
        rfl
  rw [h1, drun_high_idle]

/-- A low phase of at least the debounce duration, entered from the settled
high state, is accepted (falling edge, no tally change in the rising
configuration): it ends settled low with the tally unchanged. -/
theorem drun_fall (D t b : Nat) (hD : 1 ≤ D) (hb : D ≤ b) :
    drun D (settledHigh t) (List.replicate b false) = settledLow t := by
  obtain ⟨m, rfl⟩ : ∃ m, b = D + m := ⟨b - D, by omega⟩
  rw [List.replicate_add, drun_append]
  have h1 : drun D (settledHigh t) (List.replicate D false) = settledLow t := by
    cases D with
    | zero => omega
    | succ n =>
      rw [List.replicate_succ, drun_cons]
      cases n with
      | zero => rw [dstep_high_accept_one _ _ (by omega)]; rfl
      | succ p =>
        rw [dstep_high_to_cand _ _ (by omega),
          show List.replicate (p + 1) false = List.replicate p false ++ [false] from by
            rw [List.replicate_succ'],
          drun_append, drun_fall_progress _ _ _ 1 (by omega), drun_cons,
          dstep_fall_accept _ _ _ (by omega)]
        rfl
  rw [h1, drun_low_idle]

theorem drun_short_high (D t b : Nat) (hb : b < D) :
    drun D (settledLow t) (List.replicate b true)
    = if b = 0 then settledLow t else ⟨false, true, b, t⟩ := by
  cases b with
  | zero => rfl
  | succ n =>
    rw [if_neg (by omega), List.replicate_succ, drun_cons,
      dstep_low_to_cand _ _ (by omega)]
    have h := drun_high_progress D t n 1 (by omega)
    rw [show (1 : Nat) + n = n + 1 from by omega] at h
    exact h

/-- A pulse train: each pair is a high-phase length followed by a low-phase
length, in ticks. -/
def pulseTrace : List (Nat × Nat) → List Bool
  | [] => []
  | p :: rest => List.replicate p.1 true ++ (List.replicate p.2 false ++ pulseTrace rest)

theorem drun_short_pulse (D a b c t : Nat) (hb : b < D) :
    (drun D (settledLow t)
      (List.replicate a false ++ List.replicate b true ++ List.replicate c false)).tally
    = t := by
  rw [drun_append, drun_append, drun_low_idle, drun_short_high D t b hb]
  by_cases h0 : b = 0
  · rw [if_pos h0, drun_low_idle]
    rfl
  · rw [if_neg h0]
    cases c with
    | zero => rfl
    | succ m =>
      rw [List.replicate_succ, drun_cons, dstep_cand_reset_low, drun_low_idle]
      rfl

theorem drun_pulses (D : Nat) (hD : 1 ≤ D) (ps : List (Nat × Nat)) : ∀ (t : Nat),
    (∀ p ∈ ps, D ≤ p.1 ∧ D ≤ p.2) →
    drun D (settledLow t) (pulseTrace ps) = settledLow (t + ps.length) := by
  induction ps with
  | nil => intro t _; rfl
  | cons p rest ih =>
    intro t hall
    obtain ⟨h1, h2⟩ := hall p (List.mem_cons_self _ _)
    rw [show pulseTrace (p :: rest)
        = List.replicate p.1 true ++ (List.replicate p.2 false ++ pulseTrace rest) from rfl,
      drun_append, drun_append, drun_rise D t p.1 hD h1, drun_fall D (t + 1) p.2 hD h2,
      ih (t + 1) (fun q hq => hall q (List.mem_cons_of_mem _ hq)),
      List.length_cons, show t + 1 + rest.length = t + (rest.length + 1) from by omega]

theorem dstep_tally_change (D : Nat) (s : Debounce) (i : Bool)
    (h : (dstep D s i).tally ≠ s.tally) :
    i ≠ s.stable ∧ i = true ∧ D ≤ (if i = s.candidate then s.count + 1 else 1) := by
  by_cases h1 : i = s.stable
  · rw [dstep, if_pos h1] at h
    simp at h
  · by_cases h2 : D ≤ (if i = s.candidate then s.count + 1 else 1)
    · refine ⟨h1, ?_, h2⟩
      cases i
      · rw [dstep, if_neg h1, if_pos h2] at h
        simp at h
      · rfl
    · rw [dstep, if_neg h1, if_neg h2] at h
      simp at h

/-- C7: a transition is accepted — and the transient tally incremented, in the
rising-edge configuration — only when the input has been stable in the new
state for the full debounce duration; a high pulse shorter than the debounce
window is never counted; and a train of pulses whose high and low phases each
meet the debounce duration (so that consecutive genuine transitions are
separated by at least the debounce window) is counted exactly once per
pulse. -/
theorem debounce_correct (D : Nat) (hD : 1 ≤ D) :
    (∀ (s : Debounce) (i : Bool), (dstep D s i).tally ≠ s.tally →
        i ≠ s.stable ∧ i = true ∧ D ≤ (if i = s.candidate then s.count + 1 else 1))
  ∧ (∀ (a b c t : Nat), b < D →
        (drun D (settledLow t)
          (List.replicate a false ++ List.replicate b true ++ List.replicate c false)).tally
        = t)
  ∧ (∀ (ps : List (Nat × Nat)) (t : Nat), (∀ p ∈ ps, D ≤ p.1 ∧ D ≤ p.2) →
        (drun D (settledLow t) (pulseTrace ps)).tally = t + ps.length) := by
  refine ⟨fun s i h => dstep_tally_change D s i h,
    fun a b c t hb => drun_short_pulse D a b c t hb,
    fun ps t hall => ?_⟩
  rw [drun_pulses D hD ps t hall]
  rfl

/-- Witness for C7: debounce window of 2 ticks, two full pulses — the tally
rises by exactly 2. -/
theorem debounce_correct_witness :
    (∀ p ∈ [((2 : Nat), (2 : Nat)), (3, 4)], 2 ≤ p.1 ∧ 2 ≤ p.2) ∧
    (drun 2 (settledLow 0) (pulseTrace [(2, 2), (3, 4)])).tally = 0 + 2 :=
  ⟨by decide, (debounce_correct 2 (by decide)).2.2 [(2, 2), (3, 4)] 0 (by decide)⟩

/-- Events seen by a pulse counter between report cycles: an accepted pulse
edge, or a scheduled report duty firing (with the delivery outcome of the
fire-and-forget send). -/
inductive PulseEv where
  | pulse : PulseEv
  | report (delivered : Bool) : PulseEv
deriving DecidableEq

/-- Modelled from the spec: a PinCounter — the transient in-memory tally, the
backing persistent counter, and the list of delta reports handed to the
Reporter so far. -/
structure PinCounter where
  tally : Nat
  backing : NonVolitileCounter
  deltas : List Nat
deriving DecidableEq

/-- Modelled from the spec: an accepted pulse edge increments the transient
tally; a report cycle adds the tally to the backing persistent counter via
`setValue(currentValue + tally)`, submits the delta to the Reporter, and resets
the tally to zero immediately — regardless of delivery success. -/
def PinCounter.step (s : PinCounter) : PulseEv → PinCounter
  | PulseEv.pulse => { s with tally := s.tally + 1 }
  | PulseEv.report _ =>
      { tally := 0,
        backing := s.backing.setValue (s.backing.currentValue + (s.tally : Int)),
        deltas := s.deltas ++ [s.tally] }

/-- Run a pulse counter over a list of events. -/
def pcRun (s : PinCounter) (evs : List PulseEv) : PinCounter :=
  evs.foldl PinCounter.step s

/-- Number of accepted pulse edges in an event window. -/
def countPulses (evs : List PulseEv) : Nat :=
  evs.countP (fun e => match e with | PulseEv.pulse => true | _ => false)

@[simp] theorem pcRun_nil (s : PinCounter) : pcRun s [] = s := rfl

@[simp] theorem pcRun_cons (s : PinCounter) (e : PulseEv) (evs : List PulseEv) :
    pcRun s (e :: evs) = pcRun (s.step e) evs := rfl

@[simp] theorem countPulses_nil : countPulses [] = 0 := rfl

theorem countPulses_cons (e : PulseEv) (evs : List PulseEv) :
    countPulses (e :: evs)
    = (match e with | PulseEv.pulse => 1 | _ => 0) + countPulses evs := by
  cases e with
  | pulse => simp [countPulses, List.countP_cons]; omega
  | report d => simp [countPulses, List.countP_cons]

theorem pcRun_deltas_tally (evs : List PulseEv) : ∀ (s : PinCounter),
    ((pcRun s evs).deltas.sum + (pcRun s evs).tally)
    = s.deltas.sum + s.tally + countPulses evs := by
  induction evs with
  | nil => intro s; simp
  | cons e rest ih =>
    intro s
    rw [pcRun_cons, ih (s.step e), countPulses_cons]
    cases e with
    | pulse =>
      simp only [PinCounter.step]
      omega
    | report d =>
      simp only [PinCounter.step, List.sum_append, List.sum_cons, List.sum_nil]
      omega

theorem pcRun_backing_value (evs : List PulseEv) : ∀ (s : PinCounter),
    (pcRun s evs).backing.currentValue + ((pcRun s evs).tally : Int)
    = s.backing.currentValue + (s.tally : Int) + (countPulses evs : Int) := by
  induction evs with
  | nil => intro s; simp
  | cons e rest ih =>
    intro s
    rw [pcRun_cons, ih (s.step e), countPulses_cons]
    cases e with
    | pulse =>
      simp only [PinCounter.step]
      push_cast
      ring
    | report d =>
      simp only [PinCounter.step, NonVolitileCounter.setValue]
      push_cast
      ring

/-- C8: over any window of events starting at a fresh report cycle, the sum of
all emitted deltas plus the one possibly un-reported residual tally equals the
number of accepted pulse edges; the backing persistent counter has absorbed
exactly the reported deltas; and a report cycle resets the tally to zero and
behaves identically whatever the delivery outcome. -/
theorem report_count_conservation (evs : List PulseEv) (nv : NonVolitileCounter) :
    ((pcRun ⟨0, nv, []⟩ evs).deltas.sum + (pcRun ⟨0, nv, []⟩ evs).tally = countPulses evs)
  ∧ ((pcRun ⟨0, nv, []⟩ evs).backing.currentValue
      = nv.currentValue + ((pcRun ⟨0, nv, []⟩ evs).deltas.sum : Int))
  ∧ (∀ (s : PinCounter) (d : Bool), (s.step (PulseEv.report d)).tally = 0)
  ∧ (∀ (s : PinCounter) (d e : Bool),
      s.step (PulseEv.report d) = s.step (PulseEv.report e)) := by
  have h1 := pcRun_deltas_tally evs ⟨0, nv, []⟩
  have h2 := pcRun_backing_value evs ⟨0, nv, []⟩
  simp only [List.sum_nil] at h1 h2
  refine ⟨by omega, ?_, fun s d => rfl, fun s d e => rfl⟩
  have h3 : ((pcRun ⟨0, nv, []⟩ evs).deltas.sum : Int) + ((pcRun ⟨0, nv, []⟩ evs).tally : Int)
      = (countPulses evs : Int) := by
    exact_mod_cast congrArg (fun n : Nat => (n : Int)) (by omega : (pcRun ⟨0, nv, []⟩ evs).deltas.sum + (pcRun ⟨0, nv, []⟩ evs).tally = countPulses evs)
  omega

/-- Witness for C8 applied at a concrete window: two pulses, a failed report,
one more pulse. -/
theorem report_conservation_witness :
    ((pcRun ⟨0, NonVolitileCounter.init 2 (List.replicate 2 Slot.empty) 0, []⟩
        [PulseEv.pulse, PulseEv.pulse, PulseEv.report false, PulseEv.pulse]).deltas.sum
      + (pcRun ⟨0, NonVolitileCounter.init 2 (List.replicate 2 Slot.empty) 0, []⟩
        [PulseEv.pulse, PulseEv.pulse, PulseEv.report false, PulseEv.pulse]).tally)
    = countPulses [PulseEv.pulse, PulseEv.pulse, PulseEv.report false, PulseEv.pulse] :=
  (report_count_conservation
    [PulseEv.pulse, PulseEv.pulse, PulseEv.report false, PulseEv.pulse]
    (NonVolitileCounter.init 2 (List.replicate 2 Slot.empty) 0)).1

/-- Actions of one iteration of the firmware main loop (main.cpp `loop`), in
program order. -/
inductive LoopAction where
  | pulseProcess (name : String) : LoopAction
  | wmProcess : LoopAction
  | dispatcherProcess : LoopAction
  | delayMs (ms : Nat) : LoopAction
deriving DecidableEq

/-- The body of `loop()` in main.cpp: cold and hot pulse sampling, WiFiManager
processing, TimerDispatcher dispatch, then the 10 ms tick delay. -/
def loopBody : List LoopAction :=
  [LoopAction.pulseProcess "cold", LoopAction.pulseProcess "hot",
   LoopAction.wmProcess, LoopAction.dispatcherProcess, LoopAction.delayMs 10]

/-- C3: in every iteration of the main loop, every pulse-edge sampling action
precedes the TimerDispatcher dispatch, so a pulse accepted in a tick can be
folded into a report duty firing in the same tick; both pulse counters are
sampled and the dispatcher runs in every iteration. -/
theorem loop_pulse_precedes_dispatch :
    (∀ (i : Nat) (n : String), loopBody[i]? = some (LoopAction.pulseProcess n) →
      ∀ (j : Nat), loopBody[j]? = some LoopAction.dispatcherProcess → i < j)
  ∧ LoopAction.pulseProcess "cold" ∈ loopBody
  ∧ LoopAction.pulseProcess "hot" ∈ loopBody
  ∧ LoopAction.dispatcherProcess ∈ loopBody := by
  refine ⟨?_, by decide, by decide, by decide⟩
  intro i n hi j hj
  have hil : i < 5 := by
    by_contra hge
    rw [List.getElem?_eq_none_iff.mpr (by simp [loopBody]; omega)] at hi
    cases hi
  have hjl : j < 5 := by
    by_contra hge
    rw [List.getElem?_eq_none_iff.mpr (by simp [loopBody]; omega)] at hj
    cases hj
  have hj3 : j = 3 := by interval_cases j <;> simp_all [loopBody]
  have hi3 : i < 3 := by interval_cases i <;> simp_all [loopBody]
  omega

/-- Witness for C3: the cold-counter sampling at index 0 precedes the
dispatcher dispatch at index 3. -/
theorem loop_pulse_precedes_dispatch_witness :
    loopBody[0]? = some (LoopAction.pulseProcess "cold")
    ∧ loopBody[3]? = some LoopAction.dispatcherProcess
    ∧ (0 : Nat) < 3 :=
  ⟨rfl, rfl, loop_pulse_precedes_dispatch.1 0 "cold" rfl 3 rfl⟩

/-- Observable actions of `setup()` in main.cpp after the mode pin is read. -/
inductive BootAction where
  | startConfigPortal : BootAction
  | autoConnect : BootAction
  | startWebPortal : BootAction
  | saveSettingsToEeprom : BootAction
  | startTimer (duty : String) (interval : Nat) : BootAction
deriving DecidableEq

/-- Time units used by the TimerDispatcher registrations, in milliseconds. -/
def SECONDS : Nat := 1000

/-- Sixty seconds, in milliseconds. -/
def MINUTES : Nat := 60 * SECONDS

/-- The seven `startTimer` registrations issued by `setup()` in main.cpp, in
program order. -/
def registeredDuties : List BootAction :=
  [BootAction.startTimer "hotCounter" (60 * SECONDS),
   BootAction.startTimer "coldCounter" (60 * SECONDS),
   BootAction.startTimer "sensors" (5 * MINUTES),
   BootAction.startTimer "hotWaterCounter" (15 * MINUTES),
   BootAction.startTimer "coldWaterCounter" (15 * MINUTES),
   BootAction.startTimer "pzem" (5 * MINUTES),
   BootAction.startTimer "pulsar" (30 * MINUTES)]

/-- The mode-dependent tail of `setup()` in main.cpp: if the setup pin reads
LOW the (blocking) config portal runs and the settings are saved; otherwise
the device auto-connects and starts the web portal.  In both branches the
seven timer registrations follow unconditionally (lines 167–173 sit after the
if/else). -/
def setupActions (setupPinLow : Bool) : List BootAction :=
  (if setupPinLow then [BootAction.startConfigPortal, BootAction.saveSettingsToEeprom]
   else [BootAction.autoConnect, BootAction.startWebPortal])
  ++ registeredDuties

/-- Predicate selecting the scheduler registrations. -/
def isStartTimer : BootAction → Bool
  | BootAction.startTimer _ _ => true
  | _ => false

/-- Counterexample for C2 as stated: in provisioning mode (setup pin LOW) the
scheduler IS started — `setup()` registers all seven duties after the config
portal session, so the action list of the provisioning branch is not free of
`startTimer` actions. -/
theorem setup_provisioning_counterexample :
    BootAction.startTimer "hotCounter" (60 * SECONDS) ∈ setupActions true
    ∧ (setupActions true).countP isStartTimer = 7 := by
  constructor
  · decide
  · decide

/-- C2 (amended): in both boot modes the scheduler is started with all seven
registered duties after the mode branch completes; in provisioning mode the
blocking config portal runs first (so no periodic duty runs during the
provisioning session), but the timers are still registered afterwards. -/
theorem setup_starts_timers_in_both_modes :
    (∀ (pinLow : Bool), (setupActions pinLow).filter isStartTimer = registeredDuties)
    ∧ (setupActions true).head? = some BootAction.startConfigPortal
    ∧ (setupActions false).head? = some BootAction.autoConnect := by
  refine ⟨?_, rfl, rfl⟩
  intro pinLow
  cases pinLow <;> decide

/-- The persisted configuration record of main.cpp: the PZEM energy float
(modelled as an exact rational; IEEE rounding and NaN are outside the model)
and the two water-counter longs. -/
structure Settings where
  pzemEnergy : Rat
  coldWaterCounter : Int
  hotWaterCounter : Int
deriving DecidableEq

/-- Observable side effects of `saveParamsCallback` in main.cpp. -/
inductive SaveEffect where
  | eepromPut (offset : Nat) (s : Settings) : SaveEffect
  | pzemSetValue (v : Rat) : SaveEffect
  | coldSetValue (v : Int) : SaveEffect
  | hotSetValue (v : Int) : SaveEffect
deriving DecidableEq

/-- `saveParamsCallback` from main.cpp lines 63–89: snapshot the old settings,
overwrite the settings record from the three form parameters, write the whole
record to EEPROM offset 0 unconditionally, then call `setValue` on each
component exactly when its value changed. -/
def saveParamsCallback (old : Settings) (pPzem : Rat) (pCold pHot : Int) :
    Settings × List SaveEffect :=
  (⟨pPzem, pCold, pHot⟩,
    [SaveEffect.eepromPut 0 ⟨pPzem, pCold, pHot⟩]
    ++ (if old.pzemEnergy ≠ pPzem then [SaveEffect.pzemSetValue pPzem] else [])
    ++ (if old.coldWaterCounter ≠ pCold then [SaveEffect.coldSetValue pCold] else [])
    ++ (if old.hotWaterCounter ≠ pHot then [SaveEffect.hotSetValue pHot] else []))

/-- C10: every invocation of `saveParamsCallback` writes the full settings
record to EEPROM offset 0 unconditionally, and calls a component's `setValue`
if and only if that component's parameter differs from its previously stored
value — unchanged parameters leave their component untouched. -/
theorem saveParams_frame (old : Settings) (p : Rat) (c h : Int) :
    ((saveParamsCallback old p c h).1 = ⟨p, c, h⟩)
  ∧ (SaveEffect.eepromPut 0 ⟨p, c, h⟩ ∈ (saveParamsCallback old p c h).2)
  ∧ ((∃ v, SaveEffect.pzemSetValue v ∈ (saveParamsCallback old p c h).2)
      ↔ old.pzemEnergy ≠ p)
  ∧ ((∃ v, SaveEffect.coldSetValue v ∈ (saveParamsCallback old p c h).2)
      ↔ old.coldWaterCounter ≠ c)
  ∧ ((∃ v, SaveEffect.hotSetValue v ∈ (saveParamsCallback old p c h).2)
      ↔ old.hotWaterCounter ≠ h) := by
  refine ⟨rfl, ?_, ?_, ?_, ?_⟩ <;>
    by_cases h1 : old.pzemEnergy = p <;>
    by_cases h2 : old.coldWaterCounter = c <;>
    by_cases h3 : old.hotWaterCounter = h <;>
    simp [saveParamsCallback, h1, h2, h3]

/-- Witness for C10 at a concrete invocation with one changed parameter. -/
theorem saveParams_frame_witness :
    SaveEffect.eepromPut 0 ⟨1, 2, 3⟩ ∈ (saveParamsCallback ⟨1, 2, 7⟩ 1 2 3).2
    ∧ ((∃ v, SaveEffect.pzemSetValue v ∈ (saveParamsCallback ⟨1, 2, 7⟩ 1 2 3).2)
        ↔ (⟨1, 2, 7⟩ : Settings).pzemEnergy ≠ 1) :=
  ⟨(saveParams_frame ⟨1, 2, 7⟩ 1 2 3).2.1, (saveParams_frame ⟨1, 2, 7⟩ 1 2 3).2.2.1⟩

/-- Modelled from the spec: the log region of a persistent counter — capacity
fixed-size slots starting at a base byte offset; `slotSize` is the byte size of
one slot, which neither main.cpp nor the spec pins down.  Byte address `a`
lies in the region when `base ≤ a < base + capacity * slotSize`. -/
def inRegion (base slotSize capacity a : Nat) : Prop :=
  base ≤ a ∧ a < base + capacity * slotSize

/-- The hot-water counter's log region in main.cpp starts at byte 128 and the
cold-water counter's at byte 256, each with 30 slots.  Disjointness of the two
regions is equivalent to the unspecified slot size being at most 4 bytes (and
so cannot be settled from the available sources). -/
theorem regions_disjoint_iff (S : Nat) :
    (∀ a, inRegion 128 S 30 a → ¬ inRegion 256 S 30 a) ↔ 30 * S ≤ 128 := by
  constructor
  · intro hdisj
    by_contra hgt
    exact hdisj 256 (by simp only [inRegion]; omega) (by simp only [inRegion]; omega)
  · intro hle a ha hb
    simp only [inRegion] at ha hb
    omega
